import Mathlib

/-!
Verification development for a small Phi-2 inference server (`phi2-server.py`).

The program is shallowly embedded as follows.

* A feature vector (one position of a hidden state) is a function `ℕ → ℚ`
  (`V`); exact rationals stand in for the floating-point scalars, so the
  `astype` casts of the source are identities here.
* A hidden-state tensor of shape `[batch=1, L, D]` is a list of `L` feature
  vectors (`TSeq`).  A per-layer key or value tensor of shape
  `[batch=1, H, S, Dh]` is a list of `S` entries, each a function
  `head ↦ channel ↦ ℚ` (`KV`); the sequence axis (axis 2 of the source
  tensors) is the list dimension, so concatenation along axis 2 is list
  append.  The server only ever runs batch 1.
* External library routines that are irrational over ℚ are abstracted into a
  `Numerics` bundle: `ropeVec` models `nn.RoPE` (rotation of one head-dim
  vector at a given absolute position, the documented contract of the rotary
  encoder), `expf` models the exponential inside `mx.softmax`, `rsqrt`
  models `x ↦ math.sqrt(1/x)` (used both for the attention scale and for the
  `1/sqrt(var+eps)` of `nn.LayerNorm`), `act` models
  `nn.GELU(approx="precise")`, and `cat` models one draw of
  `mx.random.categorical`.
* Additive attention masks live in `WithBot ℚ`: `⊥` is the `-inf` of the
  additive causal mask, and the softmax weight of a `⊥` score is `0`
  (`exp(-inf) = 0`), with the normalizer summing only the non-`⊥` entries.
-/

/-- A feature vector: channel index to rational value. -/
abbrev V : Type := ℕ → ℚ

/-- One sequence position of a key/value tensor: head index, channel index to value. -/
abbrev HV : Type := ℕ → ℕ → ℚ

/-- A hidden state `[1, L, D]`: list over sequence positions. -/
abbrev TSeq : Type := List V

/-- A key or value tensor `[1, H, S, Dh]`, sequence-major: list over the cached
sequence axis (axis 2 of the source), entries indexed by head then channel. -/
abbrev KV : Type := List HV

/-- An additive mask `[L, S]` with `⊥` playing the role of `-inf`. -/
abbrev CMask : Type := List (List (WithBot ℚ))

/-- One layer's KV cache: the `(keys, values)` pair returned by `RoPEAttention.__call__`. -/
abbrev LayerCache : Type := KV × KV

def v0 : V := fun _ => 0

def hv0 : HV := fun _ _ => 0

/-- Abstracted numeric collaborators (mlx library routines). -/
structure Numerics where
  ropeVec : ℕ → V → V
  expf : ℚ → ℚ
  rsqrt : ℚ → ℚ
  act : ℚ → ℚ
  cat : V → ℕ

/-- Dot product over the first `n` channels. -/
def dotQ (n : ℕ) (u v : V) : ℚ := ∑ k ∈ Finset.range n, u k * v k

/-- `nn.Linear`: `x @ W.T + b`, with `inDim` input channels. -/
def linear (W : ℕ → ℕ → ℚ) (b : V) (inDim : ℕ) (v : V) : V :=
  fun o => dotQ inDim (W o) v + b o

/-- `nn.LayerNorm` over `D` channels with affine weights and `eps = 1e-5`;
`rs` models `x ↦ 1/sqrt(x)`.  The `float32` round trip of the source's
`LayerNorm.__call__` is the identity over exact rationals. -/
def layerNorm (rs : ℚ → ℚ) (D : ℕ) (w b : V) (v : V) : V :=
  let μ : ℚ := (∑ k ∈ Finset.range D, v k) / (D : ℚ)
  let σ2 : ℚ := (∑ k ∈ Finset.range D, (v k - μ) ^ 2) / (D : ℚ)
  fun c => (v c - μ) * rs (σ2 + 1 / 100000) * w c + b c

/-! ## RoPEAttention -/

/-- Weights of one `RoPEAttention` module: the fused `Wqkv : Linear(D, 3D)`
and `out_proj : Linear(D, D)`. -/
structure AttnParams where
  wqkv : ℕ → ℕ → ℚ
  bqkv : V
  wout : ℕ → ℕ → ℚ
  bout : V

/-- `cache.shape[2]` of the keys tensor of a prior cache (`0` when absent). -/
def cachedLen : Option LayerCache → ℕ
  | none => 0
  | some c => c.1.length

/-- Sequence length of the values tensor of a prior cache (`0` when absent). -/
def cachedVLen : Option LayerCache → ℕ
  | none => 0
  | some c => c.2.length

def cacheKeys : Option LayerCache → KV
  | none => []
  | some c => c.1

def cacheVals : Option LayerCache → KV
  | none => []
  | some c => c.2

/-- Slice one third of the fused `qkv` projection into heads and apply the
rotary encoding at absolute positions `off`, `off+1`, ….  Channel `k` of head
`h` reads fused channel `shift + h * Dh + k` (the `reshape(B, L, H, -1)` of
the source, row-major). -/
def ropedSlice (nu : Numerics) (off shift Dh : ℕ) (qkv : TSeq) : KV :=
  (List.range qkv.length).map fun p => fun h =>
    nu.ropeVec (off + p) (fun k => qkv.getD p v0 (shift + h * Dh + k))

/-- Slice one third of the fused `qkv` projection into heads without rotary
encoding (used for the values). -/
def plainSlice (shift Dh : ℕ) (qkv : TSeq) : KV :=
  (List.range qkv.length).map fun p => fun h => fun k =>
    qkv.getD p v0 (shift + h * Dh + k)

/-- Additive mask entry at query position `p`, key position `j`; a `None` mask
adds nothing. -/
def maskAt : Option CMask → ℕ → ℕ → WithBot ℚ
  | none, _, _ => 0
  | some m, p, j => (m.getD p []).getD j 0

/-- The exponential extended by `exp(-inf) = 0`. -/
def expB (E : ℚ → ℚ) : WithBot ℚ → ℚ :=
  fun s => WithBot.recBotCoe 0 E s

/-- `mx.softmax` along the key axis of one score row that may contain `-inf`
(`⊥`) entries: such entries get weight `0` and do not contribute to the
normalizer. -/
def softmaxB (E : ℚ → ℚ) (row : List (WithBot ℚ)) : List ℚ :=
  let Z : ℚ := (row.map (expB E)).sum
  row.map fun s => expB E s / Z

/-- `scores @ values` for one row of attention weights. -/
def weightedSum (ws : List ℚ) (vs : List V) : V :=
  fun k => ∑ j ∈ Finset.range vs.length, ws.getD j 0 * vs.getD j v0 k

/-- The score row of query position `p`, head `h`: scaled dot products against
every cached-plus-new key position, plus the additive mask entry.  The scale
`math.sqrt(1 / head_dim)` is `rsqrt Dh`, applied to the queries as in the
source. -/
def attnScores (nu : Numerics) (Dh : ℕ) (qs ks : KV) (mask : Option CMask)
    (p h : ℕ) : List (WithBot ℚ) :=
  (List.range ks.length).map fun j =>
    ((∑ k ∈ Finset.range Dh,
        (nu.rsqrt (Dh : ℚ) * qs.getD p hv0 h k) * ks.getD j hv0 h k : ℚ) : WithBot ℚ)
      + maskAt mask p j

/-- Output channel block of attention at query position `p`: softmax the score
row of head `c / Dh`, weight the values of that head, read channel `c % Dh`.
This is the `(scores @ values).transpose(0, 2, 1, 3).reshape(B, L, -1)` of
the source. -/
def attnMix (nu : Numerics) (Dh : ℕ) (qs ks vs : KV) (mask : Option CMask)
    (p : ℕ) : V :=
  fun c =>
    weightedSum (softmaxB nu.expf (attnScores nu Dh qs ks mask p (c / Dh)))
      (vs.map fun hv => hv (c / Dh)) (c % Dh)

/-- `RoPEAttention.__call__`: fused qkv projection, split into heads, rotary
encoding of queries and keys at offset `cachedLen cache`, concatenation with
the prior cache along the sequence axis, masked scaled-dot-product attention,
and the output projection.  Returns the attention output and the new
`(keys, values)` cache pair. -/
def attnCall (nu : Numerics) (ap : AttnParams) (D H : ℕ) (x : TSeq)
    (mask : Option CMask) (cache : Option LayerCache) : TSeq × LayerCache :=
  let Dh : ℕ := D / H
  let qkv : TSeq := x.map (linear ap.wqkv ap.bqkv D)
  let off : ℕ := cachedLen cache
  let qs : KV := ropedSlice nu off 0 Dh qkv
  let ks : KV := cacheKeys cache ++ ropedSlice nu off D Dh qkv
  let vs : KV := cacheVals cache ++ plainSlice (2 * D) Dh qkv
  let vhat : TSeq := (List.range x.length).map fun p => attnMix nu Dh qs ks vs mask p
  (vhat.map (linear ap.wout ap.bout D), (ks, vs))

/-! ## ParallelBlock -/

/-- Weights of one `ParallelBlock`: the shared pre-normalization, the
attention mixer, and the MLP `fc1 : Linear(D, 4D)`, `fc2 : Linear(4D, D)`. -/
structure BlockParams where
  lnw : V
  lnb : V
  attn : AttnParams
  wfc1 : ℕ → ℕ → ℚ
  bfc1 : V
  wfc2 : ℕ → ℕ → ℚ
  bfc2 : V

/-- The feed-forward sublayer `fc2(act(fc1(h)))` on one position. -/
def mlpOf (nu : Numerics) (bp : BlockParams) (D : ℕ) (v : V) : V :=
  linear bp.wfc2 bp.bfc2 (4 * D) (fun c => nu.act (linear bp.wfc1 bp.bfc1 D v c))

def addV (u v : V) : V := fun k => u k + v k

def addSeq (a b : TSeq) : TSeq := List.zipWith addV a b

/-- `ParallelBlock.__call__`: one normalization `h = ln(x)`, then
`attn_h + ff_h + x` where the attention and the feed-forward sublayer are both
applied to the same `h`. -/
def parallelBlock (nu : Numerics) (bp : BlockParams) (D H : ℕ) (x : TSeq)
    (mask : Option CMask) (cache : Option LayerCache) : TSeq × LayerCache :=
  let h : TSeq := x.map (layerNorm nu.rsqrt D bp.lnw bp.lnb)
  let r := attnCall nu bp.attn D H h mask cache
  let ff : TSeq := h.map (mlpOf nu bp D)
  (addSeq (addSeq r.1 ff) x, r.2)

/-! ## TransformerDecoder, OutputHead, Phi2 -/

/-- `TransformerDecoder.__call__`: thread the hidden state through the layers
in order, consuming `cache[e]` and producing the updated cache for layer `e`.
(The source indexes the cache list positionally; a too-short cache list is an
index error there and reads as `none` here.) -/
def transformerDecoder (nu : Numerics) (layers : List BlockParams) (D H : ℕ)
    (x : TSeq) (mask : Option CMask) (cache : List (Option LayerCache)) :
    TSeq × List LayerCache :=
  match layers with
  | [] => (x, [])
  | bp :: ls =>
    let r := parallelBlock nu bp D H x mask (cache.headD none)
    let rest := transformerDecoder nu ls D H r.1 mask cache.tail
    (rest.1, r.2 :: rest.2)

/-- Weights and dimensions of the whole `Phi2` model. -/
structure Phi2Params where
  vocab : ℕ
  D : ℕ
  H : ℕ
  wte : ℕ → V
  layers : List BlockParams
  lnfw : V
  lnfb : V
  wlm : ℕ → ℕ → ℚ
  blm : V

/-- `OutputHead.__call__`: final normalization and projection to vocab logits. -/
def outputHead (nu : Numerics) (mp : Phi2Params) (v : V) : V :=
  linear mp.wlm mp.blm mp.D (layerNorm nu.rsqrt mp.D mp.lnfw mp.lnfb v)

/-- `nn.MultiHeadAttention.create_additive_causal_mask(L)`: additive mask with
`0` on and below the diagonal and `-inf` (`⊥`) strictly above. -/
def causalMask (L : ℕ) : CMask :=
  (List.range L).map fun i =>
    (List.range L).map fun j => if j ≤ i then (0 : WithBot ℚ) else ⊥

/-- The body of `Phi2.__call__` after the mask has been chosen: embed the
tokens, run the decoder stack with the given mask and cache (a `None` cache
becomes one `None` per layer), and apply the output head. -/
def phi2Inner (nu : Numerics) (mp : Phi2Params) (mask : Option CMask)
    (inputs : List ℕ) (cache : Option (List (Option LayerCache))) :
    TSeq × List LayerCache :=
  let x : TSeq := inputs.map mp.wte
  let r := transformerDecoder nu mp.layers mp.D mp.H x mask
    (cache.getD (List.replicate mp.layers.length none))
  (r.1.map (outputHead nu mp), r.2)

/-- `Phi2.__call__`: the caller-supplied mask argument is rebound to `None`
before use (line 136 of the source), and the mask actually used is the
freshly built causal mask exactly when the sequence length exceeds 1. -/
def phi2Call (nu : Numerics) (mp : Phi2Params) (inputs : List ℕ)
    (_mask : Option CMask) (cache : Option (List (Option LayerCache))) :
    TSeq × List LayerCache :=
  phi2Inner nu mp
    (if 1 < inputs.length then some (causalMask inputs.length) else none)
    inputs cache

/-! ## generate: sampler and decoding loop -/

/-- `mx.argmax` over the first `n` vocabulary entries: the least index
attaining the maximum (first occurrence, as in the numpy convention). -/
def argmaxIdx (n : ℕ) (f : V) : ℕ :=
  match n with
  | 0 => 0
  | m + 1 => if f (argmaxIdx m f) < f m then m else argmaxIdx m f

/-- The `sample` closure of `generate`: greedy argmax at temperature `0`,
otherwise one categorical draw over `logits * (1 / temp)`. -/
def sample (nu : Numerics) (vocab : ℕ) (temp : ℚ) (logits : V) : ℕ :=
  if temp = 0 then argmaxIdx vocab logits
  else nu.cat fun c => logits c * (1 / temp)

/-- The prompt pass of `generate`: run the model over the whole prompt with no
cache, sample from the logits of the last prompt position (`logits[:, -1, :]`),
and keep the fresh cache list. -/
def genInit (nu : Numerics) (mp : Phi2Params) (temp : ℚ) (prompt : List ℕ) :
    ℕ × List LayerCache :=
  let r := phi2Call nu mp prompt none none
  (sample nu mp.vocab temp (r.1.getD (r.1.length - 1) v0), r.2)

/-- One incremental step of `generate`: feed the single most recent token
(`y[:, None]`) with the current cache, sample from the single output position
(`logits.squeeze(1)`). -/
def genStep (nu : Numerics) (mp : Phi2Params) (temp : ℚ)
    (s : ℕ × List LayerCache) : ℕ × List LayerCache :=
  let r := phi2Call nu mp [s.1] none (some (s.2.map some))
  (sample nu mp.vocab temp (r.1.getD 0 v0), r.2)

/-- The state of `generate` after the prompt pass and `i` incremental decode
steps: the token yielded at step `i` and the cache list at that point. -/
def genTrace (nu : Numerics) (mp : Phi2Params) (temp : ℚ) (prompt : List ℕ) :
    ℕ → ℕ × List LayerCache
  | 0 => genInit nu mp temp prompt
  | i + 1 => genStep nu mp temp (genTrace nu mp temp prompt i)

/-! ## complete_text -/

/-- The end-of-text marker `<|endoftext|>` searched for by `complete_text`. -/
def eosMarker : List Char :=
  ['<', '|', 'e', 'n', 'd', 'o', 'f', 't', 'e', 'x', 't', '|', '>']

/-- `s.find(pat)`: the least index at which `pat` occurs in `s`, if any. -/
def findOcc (pat : List Char) : List Char → Option ℕ
  | [] => if pat.isPrefixOf ([] : List Char) then some 0 else none
  | c :: s =>
    if pat.isPrefixOf (c :: s) then some 0
    else (findOcc pat s).map fun i => i + 1

/-- `s.find('<|endoftext|>') >= 0` of the source. -/
def eosIn (s : List Char) : Bool := (findOcc eosMarker s).isSome

/-- `s.split('<|endoftext|>', 1)[0]`: everything before the first occurrence
of the marker (the whole string when the marker is absent). -/
def beforeEos (s : List Char) : List Char :=
  match findOcc eosMarker s with
  | none => s
  | some i => s.take i

/-- The chunked decode loop of `complete_text`, one full 10-token chunk at a
time: decode the chunk, count its 10 tokens, and either stop on the marker
(dropping the chunk text, as the `break` precedes the `ret` append) or append
the text and continue.  Returns (accumulated text, tokens counted, eos flag)
contributed by `k` remaining full chunks starting at stream position
`start`. -/
def ctChunks (stream : ℕ → ℕ) (decode : List ℕ → List Char) :
    ℕ → ℕ → List Char × ℕ × Bool
  | 0, _ => ([], 0, false)
  | k + 1, start =>
    let s := decode ((List.range 10).map fun j => stream (start + j))
    if eosIn s then ([], 10, true)
    else
      let r := ctChunks stream decode k (start + 10)
      (s ++ r.1, 10 + r.2.1, r.2.2)

/-- The token stream produced by `generate`: the token yielded at step `i`. -/
def tokenStream (nu : Numerics) (mp : Phi2Params) (temp : ℚ)
    (promptIds : List ℕ) : ℕ → ℕ :=
  fun i => (genTrace nu mp temp promptIds i).1

/-- Whether the chunked loop of `complete_text` stopped on the marker. -/
def ctEos (nu : Numerics) (mp : Phi2Params) (encode : String → List ℕ)
    (decode : List ℕ → List Char) (strPrompt : String) (temp : ℚ)
    (maxTokens : ℕ) : Bool :=
  (ctChunks (tokenStream nu mp temp (encode strPrompt)) decode
    (maxTokens / 10) 0).2.2

/-- `complete_text`: tokenize the prompt, run the chunked decode loop over at
most `maxTokens` generated tokens, then (when the marker was not hit inside a
full chunk) decode the leftover tail of fewer than 10 tokens, stripping
everything from the marker onwards.  Returns the text and the
`(prompt tokens, generated tokens)` counters. -/
def completeText (nu : Numerics) (mp : Phi2Params) (encode : String → List ℕ)
    (decode : List ℕ → List Char) (strPrompt : String) (temp : ℚ)
    (maxTokens : ℕ) : List Char × ℕ × ℕ :=
  let promptIds := encode strPrompt
  let stream := tokenStream nu mp temp promptIds
  let r := ctChunks stream decode (maxTokens / 10) 0
  if r.2.2 then (r.1, promptIds.length, r.2.1)
  else
    let tail := (List.range (maxTokens % 10)).map fun j =>
      stream (10 * (maxTokens / 10) + j)
    (r.1 ++ beforeEos (decode tail), promptIds.length, r.2.1 + maxTokens % 10)

/-! ## The HTTP handler `api_completions` -/

structure ChatMessage where
  role : String
  content : String

structure ChatRequest where
  messages : List ChatMessage
  temperature : Option ℚ

structure Usage where
  prompt_tokens : ℕ
  completion_tokens : ℕ
  total_tokens : ℕ

structure RespMessage where
  role : String
  content : List Char

structure Choice where
  message : RespMessage
  finish_reason : String
  index : ℕ

structure ChatResponse where
  id : String
  object : String
  created : ℤ
  model : String
  usage : Usage
  choices : List Choice

/-- Python `str.strip()` whitespace test. -/
def isWS (c : Char) : Bool :=
  (c == ' ') || (c == '\n') || (c == '\t') || (c == '\r')

/-- Python `txt.strip()`. -/
def stripText (s : List Char) : List Char :=
  ((s.dropWhile isWS).reverse.dropWhile isWS).reverse

def dummyChoice : Choice :=
  { message := { role := "", content := [] }, finish_reason := "", index := 0 }

/-- `api_completions`: format the prompt from the first message as
`"<role>: <content>\nAssistance: "`, default the temperature to `0.7` when the
request has none, run `complete_text` with the configured
`default_token_max` (`dtm`), and build the response record.  The handler has
no error path: every request yields a `ChatResponse`. -/
def apiCompletions (nu : Numerics) (mp : Phi2Params) (encode : String → List ℕ)
    (decode : List ℕ → List Char) (now : ℤ) (dtm : ℕ) (req : ChatRequest) :
    ChatResponse :=
  let msg := (req.messages.headD { role := "", content := "" })
  let promptStr := msg.role ++ ": " ++ msg.content ++ "\n" ++ "Assistance" ++ ": "
  let temp := req.temperature.getD (7 / 10)
  let r := completeText nu mp encode decode promptStr temp dtm
  { id := "gen-resp-1"
    object := "chat.completion"
    created := now
    model := "phi-2"
    usage :=
      { prompt_tokens := r.2.1
        completion_tokens := r.2.2
        total_tokens := r.2.1 + r.2.2 }
    choices :=
      [{ message := { role := "Assistance", content := stripText r.1 }
         finish_reason := "stop"
         index := 0 }] }

/-! ## List access helpers -/

theorem getD_map' {α β : Type} (f : α → β) (d : β) (d' : α) {l : List α} {p : ℕ}
    (h : p < l.length) : (l.map f).getD p d = f (l.getD p d') := by
  rw [List.getD_eq_getElem?_getD, List.getD_eq_getElem?_getD, List.getElem?_map,
    List.getElem?_eq_getElem h]
  rfl

theorem getD_rangeMap {α : Type} (f : ℕ → α) (d : α) {L p : ℕ} (h : p < L) :
    ((List.range L).map f).getD p d = f p := by
  rw [List.getD_eq_getElem?_getD, List.getElem?_map, List.getElem?_range h]
  rfl

theorem getD_zipWith' {α β γ : Type} (f : α → β → γ) (d : γ) (da : α) (db : β) :
    ∀ (a : List α) (b : List β) (p : ℕ), p < a.length → p < b.length →
      (List.zipWith f a b).getD p d = f (a.getD p da) (b.getD p db)
  | [], _, _, h, _ => absurd h (by simp)
  | _ :: _, [], _, _, h => absurd h (by simp)
  | _ :: _, _ :: _, 0, _, _ => rfl
  | _ :: xs, _ :: ys, p + 1, h1, h2 =>
    getD_zipWith' f d da db xs ys p (by simpa using h1) (by simpa using h2)

theorem take_eq_of_getElem? {α : Type} {x y : List α} {n : ℕ}
    (h : ∀ i, i < n → x[i]? = y[i]?) : x.take n = y.take n := by
  apply List.ext_getElem?
  intro i
  by_cases hi : i < n
  · rw [List.getElem?_take_of_lt hi, List.getElem?_take_of_lt hi, h i hi]
  · have hx : (x.take n).length ≤ i := by
      have := List.length_take_le n x
      omega
    have hy : (y.take n).length ≤ i := by
      have := List.length_take_le n y
      omega
    rw [List.getElem?_eq_none hx, List.getElem?_eq_none hy]

theorem getElem?_of_take_eq {α : Type} {x y : List α} {n : ℕ}
    (h : x.take n = y.take n) : ∀ i, i < n → x[i]? = y[i]?:= by
  intro i hi
  rw [← List.getElem?_take_of_lt (l := x) hi, ← List.getElem?_take_of_lt (l := y) hi, h]

theorem getD_eq_of_getElem?_eq {α : Type} {x y : List α} {p : ℕ} (d : α)
    (h : x[p]? = y[p]?) : x.getD p d = y.getD p d := by
  rw [List.getD_eq_getElem?_getD, List.getD_eq_getElem?_getD, h]

/-! ## Shape lemmas -/

theorem cacheKeys_length (oc : Option LayerCache) :
    (cacheKeys oc).length = cachedLen oc := by
  cases oc <;> rfl

theorem cacheVals_length (oc : Option LayerCache) :
    (cacheVals oc).length = cachedVLen oc := by
  cases oc <;> rfl

theorem attnCall_out_length (nu : Numerics) (ap : AttnParams) (D H : ℕ)
    (x : TSeq) (mask : Option CMask) (cache : Option LayerCache) :
    (attnCall nu ap D H x mask cache).1.length = x.length := by
  simp [attnCall]

theorem attnCall_keys_length (nu : Numerics) (ap : AttnParams) (D H : ℕ)
    (x : TSeq) (mask : Option CMask) (cache : Option LayerCache) :
    (attnCall nu ap D H x mask cache).2.1.length = cachedLen cache + x.length := by
  simp [attnCall, ropedSlice, cacheKeys_length]

theorem attnCall_vals_length (nu : Numerics) (ap : AttnParams) (D H : ℕ)
    (x : TSeq) (mask : Option CMask) (cache : Option LayerCache) :
    (attnCall nu ap D H x mask cache).2.2.length = cachedVLen cache + x.length := by
  simp [attnCall, plainSlice, cacheVals_length]

theorem parallelBlock_out_length (nu : Numerics) (bp : BlockParams) (D H : ℕ)
    (x : TSeq) (mask : Option CMask) (cache : Option LayerCache) :
    (parallelBlock nu bp D H x mask cache).1.length = x.length := by
  simp [parallelBlock, addSeq, attnCall_out_length]

theorem parallelBlock_keys_length (nu : Numerics) (bp : BlockParams) (D H : ℕ)
    (x : TSeq) (mask : Option CMask) (cache : Option LayerCache) :
    (parallelBlock nu bp D H x mask cache).2.1.length = cachedLen cache + x.length := by
  simpa [parallelBlock] using
    attnCall_keys_length nu bp.attn D H
      (x.map (layerNorm nu.rsqrt D bp.lnw bp.lnb)) mask cache

theorem parallelBlock_vals_length (nu : Numerics) (bp : BlockParams) (D H : ℕ)
    (x : TSeq) (mask : Option CMask) (cache : Option LayerCache) :
    (parallelBlock nu bp D H x mask cache).2.2.length = cachedVLen cache + x.length := by
  simpa [parallelBlock] using
    attnCall_vals_length nu bp.attn D H
      (x.map (layerNorm nu.rsqrt D bp.lnw bp.lnb)) mask cache

/-- Shape invariant of the decoder stack: when every supplied per-layer cache
entry has cached length `m` (with `none` counting as a fresh, length-0 cache
only if `m = 0`), the hidden state keeps its length and every produced layer
cache has both tensors of length `m + L`. -/
theorem decoder_shape (nu : Numerics) (D H : ℕ) (m : ℕ) :
    ∀ (layers : List BlockParams) (x : TSeq) (mask : Option CMask)
      (cache : List (Option LayerCache)),
      layers.length ≤ cache.length →
      (∀ oc ∈ cache, cachedLen oc = m ∧ cachedVLen oc = m) →
      (transformerDecoder nu layers D H x mask cache).1.length = x.length ∧
      (transformerDecoder nu layers D H x mask cache).2.length = layers.length ∧
      ∀ lc ∈ (transformerDecoder nu layers D H x mask cache).2,
        lc.1.length = m + x.length ∧ lc.2.length = m + x.length := by
  intro layers
  induction layers with
  | nil =>
    intro x mask cache _ _
    refine ⟨rfl, rfl, ?_⟩
    intro lc hlc
    simp [transformerDecoder] at hlc
  | cons bp ls ih =>
    intro x mask cache hlen hmem
    cases cache with
    | nil => simp at hlen
    | cons oc cs =>
      have hoc := hmem oc (by simp)
      have hrest := ih ((parallelBlock nu bp D H x mask oc).1) mask cs
        (by simpa using hlen) (fun c hc => hmem c (by simp [hc]))
      have hout : (parallelBlock nu bp D H x mask oc).1.length = x.length :=
        parallelBlock_out_length nu bp D H x mask oc
      simp only [transformerDecoder, List.headD_cons, List.tail_cons]
      refine ⟨?_, ?_, ?_⟩
      · rw [hrest.1, hout]
      · simp [hrest.2.1]
      · intro lc hlc
        simp only [List.mem_cons] at hlc
        rcases hlc with h | h
        · subst h
          constructor
          · rw [parallelBlock_keys_length, hoc.1]
          · rw [parallelBlock_vals_length, hoc.2]
        · have := hrest.2.2 lc h
          rw [hout] at this
          exact this

/-- Cache-shape invariant of `generate`: after the prompt pass and `i` decode
steps the cache list has one entry per layer and every entry is a pair of
tensors of cached length `prompt_length + i`. -/
theorem genTrace_shape (nu : Numerics) (mp : Phi2Params) (temp : ℚ)
    (prompt : List ℕ) : ∀ i : ℕ,
    (genTrace nu mp temp prompt i).2.length = mp.layers.length ∧
    ∀ lc ∈ (genTrace nu mp temp prompt i).2,
      lc.1.length = prompt.length + i ∧ lc.2.length = prompt.length + i := by
  intro i
  induction i with
  | zero =>
    have h := decoder_shape nu mp.D mp.H 0 mp.layers (prompt.map mp.wte)
      (if 1 < (prompt.map mp.wte).length then some (causalMask prompt.length) else none)
      (List.replicate mp.layers.length none)
      (by simp) (by intro oc hoc; rcases List.eq_of_mem_replicate hoc with rfl; exact ⟨rfl, rfl⟩)
    constructor
    · show (transformerDecoder nu mp.layers mp.D mp.H _ _ _).2.length = mp.layers.length
      simpa [genTrace, genInit, phi2Call, phi2Inner] using h.2.1
    · intro lc hlc
      have hlc' : lc ∈ (transformerDecoder nu mp.layers mp.D mp.H (prompt.map mp.wte)
          (if 1 < (prompt.map mp.wte).length then some (causalMask prompt.length) else none)
          (List.replicate mp.layers.length none)).2 := by
        simpa [genTrace, genInit, phi2Call, phi2Inner] using hlc
      have := h.2.2 lc hlc'
      simpa using this
  | succ i ih =>
    have hcachelen : ((genTrace nu mp temp prompt i).2.map some).length =
        mp.layers.length := by simpa using ih.1
    have h := decoder_shape nu mp.D mp.H (prompt.length + i) mp.layers
      (([(genTrace nu mp temp prompt i).1].map mp.wte))
      (if 1 < ([(genTrace nu mp temp prompt i).1].map mp.wte).length then
        some (causalMask [(genTrace nu mp temp prompt i).1].length) else none)
      ((genTrace nu mp temp prompt i).2.map some)
      (by rw [hcachelen])
      (by
        intro oc hoc
        rcases List.mem_map.1 hoc with ⟨lc, hlc, rfl⟩
        have := ih.2 lc hlc
        exact ⟨this.1, this.2⟩)
    constructor
    · show (genStep nu mp temp (genTrace nu mp temp prompt i)).2.length = mp.layers.length
      simpa [genStep, phi2Call, phi2Inner] using h.2.1
    · intro lc hlc
      have hlc' : lc ∈ (transformerDecoder nu mp.layers mp.D mp.H
          ([(genTrace nu mp temp prompt i).1].map mp.wte)
          (if 1 < ([(genTrace nu mp temp prompt i).1].map mp.wte).length then
            some (causalMask [(genTrace nu mp temp prompt i).1].length) else none)
          ((genTrace nu mp temp prompt i).2.map some)).2 := by
        simpa [genTrace, genStep, phi2Call, phi2Inner] using hlc
      have := h.2.2 lc hlc'
      constructor
      · rw [this.1]; simp; omega
      · rw [this.2]; simp; omega

/-! ## Claim C1 -/

/-- C1: for every generation session, after the prompt pass over a prompt of
length `P` followed by `i` incremental decode steps, each layer's cache is a
`(keys, values)` pair whose sequence-length dimension equals `P + i` in both
tensors; the two tensors of a pair always have identical cached length, and
that length never decreases from step `i` to step `i + 1`. -/
theorem claim_C1_cache_growth (nu : Numerics) (mp : Phi2Params) (temp : ℚ)
    (prompt : List ℕ) (i : ℕ) :
    (genTrace nu mp temp prompt i).2.length = mp.layers.length ∧
    (∀ lc ∈ (genTrace nu mp temp prompt i).2,
      lc.1.length = prompt.length + i ∧ lc.2.length = lc.1.length) ∧
    (∀ (e : ℕ) (d : LayerCache), e < mp.layers.length →
      ((genTrace nu mp temp prompt i).2.getD e d).1.length ≤
        ((genTrace nu mp temp prompt (i + 1)).2.getD e d).1.length) := by
  obtain ⟨hlen, hmem⟩ := genTrace_shape nu mp temp prompt i
  obtain ⟨hlen', hmem'⟩ := genTrace_shape nu mp temp prompt (i + 1)
  refine ⟨hlen, ?_, ?_⟩
  · intro lc hlc
    have h := hmem lc hlc
    exact ⟨h.1, h.2.trans h.1.symm⟩
  · intro e d he
    have he1 : e < (genTrace nu mp temp prompt i).2.length := by
      rw [hlen]; exact he
    have he2 : e < (genTrace nu mp temp prompt (i + 1)).2.length := by
      rw [hlen']; exact he
    rw [List.getD_eq_getElem _ _ he1, List.getD_eq_getElem _ _ he2]
    have m1 := hmem _ (List.getElem_mem he1)
    have m2 := hmem' _ (List.getElem_mem he2)
    rw [m1.1, m2.1]
    omega

/-! Concrete miniature model used by the witnesses. -/

def tinyAp : AttnParams := ⟨fun _ _ => 0, v0, fun _ _ => 0, v0⟩

def tinyBp : BlockParams := ⟨v0, v0, tinyAp, fun _ _ => 0, v0, fun _ _ => 0, v0⟩

def tinyNu : Numerics := ⟨fun _ v => v, fun _ => 1, fun _ => 1, fun q => q, fun _ => 0⟩

def tinyNu1 : Numerics := ⟨fun _ v => v, fun _ => 1, fun _ => 1, fun q => q, fun _ => 1⟩

def tinyMp : Phi2Params := ⟨1, 1, 1, fun _ => v0, [tinyBp], v0, v0, fun _ _ => 0, v0⟩

theorem claim_C1_cache_growth_witness :
    (genTrace tinyNu tinyMp 0 [0, 0] 2).2.length = 1 ∧
    ((genTrace tinyNu tinyMp 0 [0, 0] 2).2.getD 0 ([], [])).1.length = 4 ∧
    ((genTrace tinyNu tinyMp 0 [0, 0] 2).2.getD 0 ([], [])).1.length ≤
      ((genTrace tinyNu tinyMp 0 [0, 0] 3).2.getD 0 ([], [])).1.length := by
  have hc := claim_C1_cache_growth tinyNu tinyMp 0 [0, 0] 2
  have hlen : (genTrace tinyNu tinyMp 0 [0, 0] 2).2.length = 1 := hc.1.trans rfl
  have he : 0 < (genTrace tinyNu tinyMp 0 [0, 0] 2).2.length := by
    rw [hlen]; decide
  have hmem := hc.2.1 _ (List.getElem_mem he)
  refine ⟨hlen, ?_, hc.2.2 0 ([], []) (by decide)⟩
  rw [List.getD_eq_getElem _ _ he, hmem.1]
  rfl

/-! ## Claim C2 -/

/-- C2: every residual block computes `h` as one normalization of the block
input `x`, applies the attention sublayer and the feed-forward sublayer
(linear, then nonlinearity, then linear) independently to the same `h`, and
returns `attention_output + feedforward_output + x`; position by position the
feed-forward summand is a function of `layerNorm x_p` alone and the residual
summand is the unmodified `x_p`, so neither subpath consumes the other's
intermediate value. -/
theorem claim_C2_parallel_block (nu : Numerics) (bp : BlockParams) (D H : ℕ)
    (x : TSeq) (mask : Option CMask) (cache : Option LayerCache) :
    (parallelBlock nu bp D H x mask cache).1 =
      addSeq
        (addSeq
          (attnCall nu bp.attn D H (x.map (layerNorm nu.rsqrt D bp.lnw bp.lnb))
            mask cache).1
          ((x.map (layerNorm nu.rsqrt D bp.lnw bp.lnb)).map (mlpOf nu bp D)))
        x ∧
    ∀ p, p < x.length →
      (parallelBlock nu bp D H x mask cache).1.getD p v0 =
        addV
          (addV
            ((attnCall nu bp.attn D H (x.map (layerNorm nu.rsqrt D bp.lnw bp.lnb))
              mask cache).1.getD p v0)
            (mlpOf nu bp D (layerNorm nu.rsqrt D bp.lnw bp.lnb (x.getD p v0))))
          (x.getD p v0) := by
  refine ⟨rfl, ?_⟩
  intro p hp
  have hA : (attnCall nu bp.attn D H (x.map (layerNorm nu.rsqrt D bp.lnw bp.lnb))
      mask cache).1.length = x.length := by
    rw [attnCall_out_length]; simp
  have hF : ((x.map (layerNorm nu.rsqrt D bp.lnw bp.lnb)).map
      (mlpOf nu bp D)).length = x.length := by simp
  show (addSeq _ x).getD p v0 = _
  simp only [addSeq]
  rw [getD_zipWith' addV v0 v0 v0 _ x p
      (by rw [List.length_zipWith, hA, hF]; omega) hp,
    getD_zipWith' addV v0 v0 v0 _ _ p (by rw [hA]; omega) (by rw [hF]; omega),
    getD_map' (mlpOf nu bp D) v0 v0 (by simpa using hp),
    getD_map' (layerNorm nu.rsqrt D bp.lnw bp.lnb) v0 v0 hp]

/-! ## Claim C9 -/

/-- C9: for every input token array, cache, and any value of the mask
argument, `Phi2.__call__` returns the same result as the call with
`mask = None`: the caller-supplied mask argument is unconditionally discarded
before the internal mask is rebuilt, so it can never influence the output. -/
theorem claim_C9_mask_argument_discarded (nu : Numerics) (mp : Phi2Params)
    (inputs : List ℕ) (mask : Option CMask)
    (cache : Option (List (Option LayerCache))) :
    phi2Call nu mp inputs mask cache = phi2Call nu mp inputs none cache := rfl

/-! ## Claim C4 -/

/-- The rotary-encoded slices agree whenever the two rotary encoders agree on
the absolute positions `off`, …, `off + len - 1` actually used. -/
theorem ropedSlice_congr (nu nu' : Numerics) (off shift Dh : ℕ) (qkv : TSeq)
    (h : ∀ p, off ≤ p → p < off + qkv.length → nu.ropeVec p = nu'.ropeVec p) :
    ropedSlice nu off shift Dh qkv = ropedSlice nu' off shift Dh qkv := by
  unfold ropedSlice
  apply List.map_congr_left
  intro p hp
  rw [List.mem_range] at hp
  funext hh
  exact congrFun (h (off + p) (Nat.le_add_right _ _) (by omega)) _

/-- `attnCall` depends on the rotary encoder only through its values at the
absolute positions `cachedLen cache`, …, `cachedLen cache + L - 1`. -/
theorem attnCall_rope_congr (nu nu' : Numerics) (ap : AttnParams) (D H : ℕ)
    (x : TSeq) (mask : Option CMask) (cache : Option LayerCache)
    (he : nu.expf = nu'.expf) (hr : nu.rsqrt = nu'.rsqrt)
    (h : ∀ p, cachedLen cache ≤ p → p < cachedLen cache + x.length →
      nu.ropeVec p = nu'.ropeVec p) :
    attnCall nu ap D H x mask cache = attnCall nu' ap D H x mask cache := by
  have hlen : (x.map (linear ap.wqkv ap.bqkv D)).length = x.length := by simp
  have hq : ropedSlice nu (cachedLen cache) 0 (D / H)
      (x.map (linear ap.wqkv ap.bqkv D)) =
      ropedSlice nu' (cachedLen cache) 0 (D / H)
      (x.map (linear ap.wqkv ap.bqkv D)) := by
    apply ropedSlice_congr
    rw [hlen]
    exact h
  have hk : ropedSlice nu (cachedLen cache) D (D / H)
      (x.map (linear ap.wqkv ap.bqkv D)) =
      ropedSlice nu' (cachedLen cache) D (D / H)
      (x.map (linear ap.wqkv ap.bqkv D)) := by
    apply ropedSlice_congr
    rw [hlen]
    exact h
  have hmix : ∀ qs ks vs : KV,
      attnMix nu (D / H) qs ks vs mask = attnMix nu' (D / H) qs ks vs mask := by
    intro qs ks vs
    funext p c
    simp only [attnMix, attnScores, softmaxB, he, hr]
  simp only [attnCall, hq, hk, hmix]

/-- C4: in every attention-layer call, the rotary encoding is applied to both
queries and keys with position offset equal to the cached sequence length of
the prior cache when one is present, and with offset `0` when none is: two
rotary encoders that agree on the window `[cachedLen cache, cachedLen cache + L)`
of absolute positions produce identical attention outputs and identical new
`(keys, values)` caches. -/
theorem claim_C4_rope_offset (rv rv' : ℕ → V → V) (ef rs ac : ℚ → ℚ)
    (ct : V → ℕ) (ap : AttnParams) (D H : ℕ) (x : TSeq) (mask : Option CMask)
    (cache : Option LayerCache)
    (h : ∀ p, cachedLen cache ≤ p → p < cachedLen cache + x.length →
      rv p = rv' p) :
    attnCall ⟨rv, ef, rs, ac, ct⟩ ap D H x mask cache =
      attnCall ⟨rv', ef, rs, ac, ct⟩ ap D H x mask cache :=
  attnCall_rope_congr ⟨rv, ef, rs, ac, ct⟩ ⟨rv', ef, rs, ac, ct⟩ ap D H x mask
    cache rfl rfl h

theorem claim_C2_parallel_block_witness :
    (parallelBlock tinyNu tinyBp 1 1 [v0] none none).1.getD 0 v0 =
      addV
        (addV
          ((attnCall tinyNu tinyAp 1 1
            ([v0].map (layerNorm tinyNu.rsqrt 1 tinyBp.lnw tinyBp.lnb))
            none none).1.getD 0 v0)
          (mlpOf tinyNu tinyBp 1
            (layerNorm tinyNu.rsqrt 1 tinyBp.lnw tinyBp.lnb ([v0].getD 0 v0))))
        ([v0].getD 0 v0) :=
  (claim_C2_parallel_block tinyNu tinyBp 1 1 [v0] none none).2 0 (by decide)

theorem claim_C4_rope_offset_witness :
    attnCall ⟨fun _ v => v, id, id, id, fun _ => 0⟩ tinyAp 1 1 [v0] none none =
      attnCall ⟨fun p v => if p < 1 then v else v0, id, id, id, fun _ => 0⟩
        tinyAp 1 1 [v0] none none :=
  claim_C4_rope_offset (fun _ v => v) (fun p v => if p < 1 then v else v0)
    id id id (fun _ => 0) tinyAp 1 1 [v0] none none
    (by
      intro p _ hp
      have hp0 : p = 0 := by simpa [cachedLen] using hp
      subst hp0
      funext v
      simp)

/-! ## Claim C5 -/

theorem argmaxIdx_le_self (f : V) : ∀ n : ℕ, argmaxIdx n f ≤ n := by
  intro n
  induction n with
  | zero => exact le_refl 0
  | succ m ih =>
    simp only [argmaxIdx]
    by_cases hc : f (argmaxIdx m f) < f m
    · rw [if_pos hc]; omega
    · rw [if_neg hc]; omega

theorem argmaxIdx_lt (f : V) (n : ℕ) (h : 0 < n) : argmaxIdx n f < n := by
  cases n with
  | zero => omega
  | succ m =>
    simp only [argmaxIdx]
    by_cases hc : f (argmaxIdx m f) < f m
    · rw [if_pos hc]; omega
    · rw [if_neg hc]
      have := argmaxIdx_le_self f m
      omega

theorem argmaxIdx_le (f : V) (n : ℕ) : ∀ j, j < n → f j ≤ f (argmaxIdx n f) := by
  induction n with
  | zero => intro j hj; omega
  | succ m ih =>
    intro j hj
    simp only [argmaxIdx]
    by_cases hc : f (argmaxIdx m f) < f m
    · rw [if_pos hc]
      rcases Nat.lt_succ_iff_lt_or_eq.1 hj with h | h
      · exact le_of_lt (lt_of_le_of_lt (ih j h) hc)
      · subst h; exact le_refl _
    · rw [if_neg hc]
      rcases Nat.lt_succ_iff_lt_or_eq.1 hj with h | h
      · exact ih j h
      · subst h; exact not_lt.1 hc

theorem argmaxIdx_first (f : V) (n : ℕ) :
    ∀ j, j < n → f j = f (argmaxIdx n f) → argmaxIdx n f ≤ j := by
  induction n with
  | zero => intro j hj; omega
  | succ m ih =>
    intro j hj heq
    simp only [argmaxIdx] at heq ⊢
    by_cases hc : f (argmaxIdx m f) < f m
    · rw [if_pos hc] at heq ⊢
      by_contra hlt
      push_neg at hlt
      have hle := argmaxIdx_le f m j (by omega)
      rw [heq] at hle
      exact absurd (lt_of_le_of_lt hle hc) (lt_irrefl _)
    · rw [if_neg hc] at heq ⊢
      rcases Nat.lt_succ_iff_lt_or_eq.1 hj with h | h
      · exact ih j h heq
      · subst h
        exact argmaxIdx_le_self f j

/-- C5: for every logits vector, sampling with temperature `0` returns the
argmax over the vocabulary axis; it is deterministic (independent of the
random categorical collaborator, so the same logits always yield the same
index), the returned index is in range, it attains the maximum, and ties
resolve to the lowest index. -/
theorem claim_C5_greedy_sampling (nu nu' : Numerics) (vocab : ℕ) (logits : V) :
    sample nu vocab 0 logits = argmaxIdx vocab logits ∧
    sample nu vocab 0 logits = sample nu' vocab 0 logits ∧
    (0 < vocab → argmaxIdx vocab logits < vocab) ∧
    (∀ j, j < vocab → logits j ≤ logits (argmaxIdx vocab logits)) ∧
    (∀ j, j < vocab → logits j = logits (argmaxIdx vocab logits) →
      argmaxIdx vocab logits ≤ j) := by
  refine ⟨by simp [sample], by simp [sample], argmaxIdx_lt logits vocab,
    argmaxIdx_le logits vocab, argmaxIdx_first logits vocab⟩

def wLogits : V := fun c => if c = 0 then 0 else 5

theorem claim_C5_greedy_sampling_witness :
    sample tinyNu 3 0 wLogits = argmaxIdx 3 wLogits ∧
    argmaxIdx 3 wLogits < 3 ∧
    wLogits 2 ≤ wLogits (argmaxIdx 3 wLogits) ∧
    argmaxIdx 3 wLogits ≤ 2 ∧
    argmaxIdx 3 wLogits = 1 := by
  have h := claim_C5_greedy_sampling tinyNu tinyNu1 3 wLogits
  exact ⟨h.1, h.2.2.1 (by decide), h.2.2.2.1 2 (by decide),
    h.2.2.2.2 2 (by decide) (by decide), by decide⟩

/-! ## Claim C3: causal masking -/

theorem maskAt_causal {L p j : ℕ} (hp : p < L) (hj : j < L) :
    maskAt (some (causalMask L)) p j = if j ≤ p then (0 : WithBot ℚ) else ⊥ := by
  simp only [maskAt, causalMask]
  rw [getD_rangeMap _ _ hp, getD_rangeMap _ _ hj]

theorem attnScores_length (nu : Numerics) (Dh : ℕ) (qs ks : KV)
    (mask : Option CMask) (p h : ℕ) :
    (attnScores nu Dh qs ks mask p h).length = ks.length := by
  simp [attnScores]

/-- Two score rows at causally-visible query position `p` coincide whenever
the query at `p` and the keys at positions `≤ p` coincide: all later key
positions are `⊥` under the causal mask on both sides. -/
theorem attnScores_causal (nu : Numerics) (Dh M : ℕ) (qs qs' ks ks' : KV)
    (hkl : ks.length = M) (hkl' : ks'.length = M) (p hh : ℕ) (hpM : p < M)
    (hqsp : qs.getD p hv0 = qs'.getD p hv0)
    (hksj : ∀ j, j ≤ p → ks.getD j hv0 = ks'.getD j hv0) :
    attnScores nu Dh qs ks (some (causalMask M)) p hh =
      attnScores nu Dh qs' ks' (some (causalMask M)) p hh := by
  unfold attnScores
  rw [hkl, hkl']
  apply List.map_congr_left
  intro j hj
  rw [List.mem_range] at hj
  rw [maskAt_causal hpM hj]
  by_cases hjp : j ≤ p
  · rw [if_pos hjp, hqsp, hksj j hjp]
  · rw [if_neg hjp, WithBot.add_bot, WithBot.add_bot]

/-- Under the causal mask, the score of a key position strictly after the
query position is `-inf`. -/
theorem attnScores_causal_bot (nu : Numerics) (Dh M : ℕ) (qs ks : KV)
    (hkl : ks.length = M) (p hh j : ℕ) (hpM : p < M) (hjM : j < M)
    (hjp : p < j) :
    (attnScores nu Dh qs ks (some (causalMask M)) p hh).getD j ⊥ = ⊥ := by
  unfold attnScores
  rw [hkl]
  rw [getD_rangeMap _ _ hjM]
  rw [maskAt_causal hpM hjM, if_neg (by omega), WithBot.add_bot]

/-- A `-inf` score gets softmax weight `0`. -/
theorem softmaxB_getD_zero (E : ℚ → ℚ) (row : List (WithBot ℚ)) (j : ℕ)
    (hj : j < row.length) (hb : row.getD j ⊥ = ⊥) :
    (softmaxB E row).getD j 0 = 0 := by
  simp only [softmaxB]
  rw [getD_map' _ 0 ⊥ hj, hb]
  simp [expB]

/-- The mixed attention output at a causally-visible position `p` depends only
on the query at `p` and the keys/values at positions `≤ p`. -/
theorem attnMix_causal (nu : Numerics) (Dh M : ℕ) (qs qs' ks ks' vs vs' : KV)
    (hkl : ks.length = M) (hkl' : ks'.length = M)
    (hvl : vs.length = M) (hvl' : vs'.length = M)
    (p : ℕ) (hpM : p < M)
    (hqsp : qs.getD p hv0 = qs'.getD p hv0)
    (hksj : ∀ j, j ≤ p → ks.getD j hv0 = ks'.getD j hv0)
    (hvsj : ∀ j, j ≤ p → vs.getD j hv0 = vs'.getD j hv0) :
    attnMix nu Dh qs ks vs (some (causalMask M)) p =
      attnMix nu Dh qs' ks' vs' (some (causalMask M)) p := by
  funext c
  unfold attnMix
  rw [attnScores_causal nu Dh M qs qs' ks ks' hkl hkl' p (c / Dh) hpM hqsp hksj]
  unfold weightedSum
  simp only [List.length_map]
  rw [hvl, hvl']
  apply Finset.sum_congr rfl
  intro j hjmem
  rw [Finset.mem_range] at hjmem
  by_cases hjp : j ≤ p
  · congr 1
    rw [getD_map' _ v0 hv0 (by rw [hvl]; exact hjmem),
      getD_map' _ v0 hv0 (by rw [hvl']; exact hjmem), hvsj j hjp]
  · have hz : (softmaxB nu.expf
        (attnScores nu Dh qs' ks' (some (causalMask M)) p (c / Dh))).getD j 0
        = 0 := by
      apply softmaxB_getD_zero
      · rw [attnScores_length, hkl']
        exact hjmem
      · exact attnScores_causal_bot nu Dh M qs' ks' hkl' p (c / Dh) j hpM hjmem
          (by omega)
    rw [hz, zero_mul, zero_mul]

theorem ropedSlice_getD_congr (nu : Numerics) (off s Dh : ℕ) (qkv qkv' : TSeq)
    (i : ℕ) (hi : i < qkv.length) (hi' : i < qkv'.length)
    (hq : qkv.getD i v0 = qkv'.getD i v0) :
    (ropedSlice nu off s Dh qkv).getD i hv0 =
      (ropedSlice nu off s Dh qkv').getD i hv0 := by
  unfold ropedSlice
  rw [getD_rangeMap _ _ hi, getD_rangeMap _ _ hi', hq]

theorem plainSlice_getD_congr (s Dh : ℕ) (qkv qkv' : TSeq) (i : ℕ)
    (hi : i < qkv.length) (hi' : i < qkv'.length)
    (hq : qkv.getD i v0 = qkv'.getD i v0) :
    (plainSlice s Dh qkv).getD i hv0 = (plainSlice s Dh qkv').getD i hv0 := by
  unfold plainSlice
  rw [getD_rangeMap _ _ hi, getD_rangeMap _ _ hi', hq]

theorem ropedSlice_length (nu : Numerics) (off s Dh : ℕ) (qkv : TSeq) :
    (ropedSlice nu off s Dh qkv).length = qkv.length := by
  simp [ropedSlice]

theorem plainSlice_length (s Dh : ℕ) (qkv : TSeq) :
    (plainSlice s Dh qkv).length = qkv.length := by
  simp [plainSlice]

/-- Causality of one masked attention call on a fresh cache: the output at
position `p` is unchanged when the inputs agree at all positions `< n` and
`p < n` (later positions may differ arbitrarily). -/
theorem attnCall_causal_getD (nu : Numerics) (ap : AttnParams) (D H M : ℕ)
    (x x' : TSeq) (n : ℕ) (hxM : x.length = M) (hx'M : x'.length = M)
    (hpre : ∀ i, i < n → i < M → x.getD i v0 = x'.getD i v0)
    (p : ℕ) (hpn : p < n) (hpM : p < M) :
    (attnCall nu ap D H x (some (causalMask M)) none).1.getD p v0 =
      (attnCall nu ap D H x' (some (causalMask M)) none).1.getD p v0 := by
  have hqkvlen : (x.map (linear ap.wqkv ap.bqkv D)).length = M := by
    rw [List.length_map, hxM]
  have hqkvlen' : (x'.map (linear ap.wqkv ap.bqkv D)).length = M := by
    rw [List.length_map, hx'M]
  have hqkv : ∀ i, i < n → i < M →
      (x.map (linear ap.wqkv ap.bqkv D)).getD i v0 =
      (x'.map (linear ap.wqkv ap.bqkv D)).getD i v0 := by
    intro i hin hiM
    rw [getD_map' _ v0 v0 (by rw [hxM]; exact hiM),
      getD_map' _ v0 v0 (by rw [hx'M]; exact hiM), hpre i hin hiM]
  simp only [attnCall, cachedLen, cacheKeys, cacheVals, List.nil_append]
  rw [getD_map' _ v0 v0 (by rw [List.length_map, List.length_range, hxM]; exact hpM),
    getD_map' _ v0 v0 (by rw [List.length_map, List.length_range, hx'M]; exact hpM),
    getD_rangeMap _ _ (by rw [hxM]; exact hpM),
    getD_rangeMap _ _ (by rw [hx'M]; exact hpM)]
  have hmix := attnMix_causal nu (D / H) M
    (ropedSlice nu 0 0 (D / H) (x.map (linear ap.wqkv ap.bqkv D)))
    (ropedSlice nu 0 0 (D / H) (x'.map (linear ap.wqkv ap.bqkv D)))
    (ropedSlice nu 0 D (D / H) (x.map (linear ap.wqkv ap.bqkv D)))
    (ropedSlice nu 0 D (D / H) (x'.map (linear ap.wqkv ap.bqkv D)))
    (plainSlice (2 * D) (D / H) (x.map (linear ap.wqkv ap.bqkv D)))
    (plainSlice (2 * D) (D / H) (x'.map (linear ap.wqkv ap.bqkv D)))
    (by rw [ropedSlice_length, hqkvlen])
    (by rw [ropedSlice_length, hqkvlen'])
    (by rw [plainSlice_length, hqkvlen])
    (by rw [plainSlice_length, hqkvlen'])
    p hpM
    (ropedSlice_getD_congr nu 0 0 (D / H) _ _ p (by rw [hqkvlen]; exact hpM)
      (by rw [hqkvlen']; exact hpM) (hqkv p hpn hpM))
    (fun j hjp => ropedSlice_getD_congr nu 0 D (D / H) _ _ j
      (by rw [hqkvlen]; omega) (by rw [hqkvlen']; omega)
      (hqkv j (by omega) (by omega)))
    (fun j hjp => plainSlice_getD_congr (2 * D) (D / H) _ _ j
      (by rw [hqkvlen]; omega) (by rw [hqkvlen']; omega)
      (hqkv j (by omega) (by omega)))
  rw [hmix]

/-- Position-wise reading of one residual block. -/
theorem parallelBlock_getD_formula (nu : Numerics) (bp : BlockParams)
    (D H : ℕ) (x : TSeq) (mask : Option CMask) (cache : Option LayerCache)
    (p : ℕ) (hp : p < x.length) :
    (parallelBlock nu bp D H x mask cache).1.getD p v0 =
      addV
        (addV
          ((attnCall nu bp.attn D H (x.map (layerNorm nu.rsqrt D bp.lnw bp.lnb))
            mask cache).1.getD p v0)
          (mlpOf nu bp D (layerNorm nu.rsqrt D bp.lnw bp.lnb (x.getD p v0))))
        (x.getD p v0) := by
  have hA : (attnCall nu bp.attn D H (x.map (layerNorm nu.rsqrt D bp.lnw bp.lnb))
      mask cache).1.length = x.length := by
    rw [attnCall_out_length]; simp
  have hF : ((x.map (layerNorm nu.rsqrt D bp.lnw bp.lnb)).map
      (mlpOf nu bp D)).length = x.length := by simp
  show (addSeq _ x).getD p v0 = _
  simp only [addSeq]
  rw [getD_zipWith' addV v0 v0 v0 _ x p
      (by rw [List.length_zipWith, hA, hF]; omega) hp,
    getD_zipWith' addV v0 v0 v0 _ _ p (by rw [hA]; omega) (by rw [hF]; omega),
    getD_map' (mlpOf nu bp D) v0 v0 (by simpa using hp),
    getD_map' (layerNorm nu.rsqrt D bp.lnw bp.lnb) v0 v0 hp]

/-- Causality of one residual block on a fresh cache under the causal mask. -/
theorem parallelBlock_causal_getD (nu : Numerics) (bp : BlockParams)
    (D H M : ℕ) (x x' : TSeq) (n : ℕ) (hxM : x.length = M)
    (hx'M : x'.length = M)
    (hpre : ∀ i, i < n → i < M → x.getD i v0 = x'.getD i v0)
    (p : ℕ) (hpn : p < n) (hpM : p < M) :
    (parallelBlock nu bp D H x (some (causalMask M)) none).1.getD p v0 =
      (parallelBlock nu bp D H x' (some (causalMask M)) none).1.getD p v0 := by
  have hln : ∀ i, i < n → i < M →
      (x.map (layerNorm nu.rsqrt D bp.lnw bp.lnb)).getD i v0 =
      (x'.map (layerNorm nu.rsqrt D bp.lnw bp.lnb)).getD i v0 := by
    intro i hin hiM
    rw [getD_map' _ v0 v0 (by rw [hxM]; exact hiM),
      getD_map' _ v0 v0 (by rw [hx'M]; exact hiM), hpre i hin hiM]
  have hattn := attnCall_causal_getD nu bp.attn D H M
    (x.map (layerNorm nu.rsqrt D bp.lnw bp.lnb))
    (x'.map (layerNorm nu.rsqrt D bp.lnw bp.lnb)) n
    (by rw [List.length_map, hxM]) (by rw [List.length_map, hx'M])
    hln p hpn hpM
  rw [parallelBlock_getD_formula nu bp D H x _ none p (by omega),
    parallelBlock_getD_formula nu bp D H x' _ none p (by omega),
    hattn, hpre p hpn hpM]

theorem headD_replicate_none (k : ℕ) :
    (List.replicate k (none : Option LayerCache)).headD none = none := by
  cases k <;> simp [List.replicate_succ]

theorem tail_replicate_none (k : ℕ) :
    (List.replicate k (none : Option LayerCache)).tail =
      List.replicate (k - 1) none := by
  cases k <;> simp [List.replicate_succ]

theorem decoder_out_length (nu : Numerics) (D H : ℕ) :
    ∀ (layers : List BlockParams) (x : TSeq) (mask : Option CMask)
      (cache : List (Option LayerCache)),
      (transformerDecoder nu layers D H x mask cache).1.length = x.length := by
  intro layers
  induction layers with
  | nil => intro x mask cache; rfl
  | cons bp ls ih =>
    intro x mask cache
    simp only [transformerDecoder]
    rw [ih, parallelBlock_out_length]

/-- Causality of the whole decoder stack on fresh caches under the causal
mask. -/
theorem decoder_causal_getD (nu : Numerics) (D H M : ℕ) :
    ∀ (layers : List BlockParams) (k : ℕ) (x x' : TSeq) (n : ℕ),
      x.length = M → x'.length = M →
      (∀ i, i < n → i < M → x.getD i v0 = x'.getD i v0) →
      ∀ p, p < n → p < M →
        (transformerDecoder nu layers D H x (some (causalMask M))
          (List.replicate k none)).1.getD p v0 =
        (transformerDecoder nu layers D H x' (some (causalMask M))
          (List.replicate k none)).1.getD p v0 := by
  intro layers
  induction layers with
  | nil =>
    intro k x x' n hxM hx'M hpre p hpn hpM
    exact hpre p hpn hpM
  | cons bp ls ih =>
    intro k x x' n hxM hx'M hpre p hpn hpM
    simp only [transformerDecoder, headD_replicate_none, tail_replicate_none]
    exact ih (k - 1)
      (parallelBlock nu bp D H x (some (causalMask M)) none).1
      (parallelBlock nu bp D H x' (some (causalMask M)) none).1 n
      (by rw [parallelBlock_out_length, hxM])
      (by rw [parallelBlock_out_length, hx'M])
      (fun i hin hiM =>
        parallelBlock_causal_getD nu bp D H M x x' n hxM hx'M hpre i hin hiM)
      p hpn hpM

/-- C3: for every token input of length `L`, `Phi2.__call__` builds an
additive causal mask (`0` on and below the diagonal, `-inf` strictly above)
and passes it to the decoder stack exactly when `L > 1`, and passes no mask
when `L = 1` (or `L = 0`); consequently, for `L > 1`, the logits at position
`i` are unchanged by any change to token values at positions greater than
`i`. -/
theorem claim_C3_causal_mask :
    (∀ (nu : Numerics) (mp : Phi2Params) (inputs : List ℕ) (mm : Option CMask)
      (cache : Option (List (Option LayerCache))), 1 < inputs.length →
      phi2Call nu mp inputs mm cache =
        phi2Inner nu mp (some (causalMask inputs.length)) inputs cache) ∧
    (∀ (nu : Numerics) (mp : Phi2Params) (inputs : List ℕ) (mm : Option CMask)
      (cache : Option (List (Option LayerCache))), inputs.length ≤ 1 →
      phi2Call nu mp inputs mm cache = phi2Inner nu mp none inputs cache) ∧
    (∀ L i j : ℕ, i < L → j < L →
      ((causalMask L).getD i []).getD j ⊥ =
        if j ≤ i then (0 : WithBot ℚ) else ⊥) ∧
    (∀ (nu : Numerics) (mp : Phi2Params) (mm mm' : Option CMask)
      (ts ts' : List ℕ) (i : ℕ), ts.length = ts'.length → 1 < ts.length →
      ts.take (i + 1) = ts'.take (i + 1) →
      (phi2Call nu mp ts mm none).1.take (i + 1) =
        (phi2Call nu mp ts' mm' none).1.take (i + 1)) := by
  refine ⟨?_, ?_, ?_, ?_⟩
  · intro nu mp inputs mm cache h
    simp only [phi2Call, if_pos h]
  · intro nu mp inputs mm cache h
    have hne : ¬ 1 < inputs.length := by omega
    simp only [phi2Call, if_neg hne]
  · intro L i j hi hj
    simp only [causalMask]
    rw [getD_rangeMap _ _ hi, getD_rangeMap _ _ hj]
  · intro nu mp mm mm' ts ts' i hlen h1 htake
    have h1' : 1 < ts'.length := by omega
    simp only [phi2Call, if_pos h1, if_pos h1', phi2Inner, Option.getD_none]
    rw [← hlen]
    have hx : ∀ iN, iN < i + 1 → iN < ts.length →
        (ts.map mp.wte).getD iN v0 = (ts'.map mp.wte).getD iN v0 := by
      intro iN hi1 hiM
      rw [getD_map' mp.wte v0 0 (by omega),
        getD_map' mp.wte v0 0 (by omega)]
      have := getD_eq_of_getElem?_eq (0 : ℕ) (getElem?_of_take_eq htake iN hi1)
      rw [this]
    have hl1 : ((transformerDecoder nu mp.layers mp.D mp.H (ts.map mp.wte)
        (some (causalMask ts.length))
        (List.replicate mp.layers.length none)).1.map
          (outputHead nu mp)).length = ts.length := by
      rw [List.length_map, decoder_out_length, List.length_map]
    have hl2 : ((transformerDecoder nu mp.layers mp.D mp.H (ts'.map mp.wte)
        (some (causalMask ts.length))
        (List.replicate mp.layers.length none)).1.map
          (outputHead nu mp)).length = ts.length := by
      rw [List.length_map, decoder_out_length, List.length_map, hlen]
    apply take_eq_of_getElem?
    intro idx hidx
    by_cases hM : idx < ts.length
    · rw [List.getElem?_eq_getElem (by omega : idx < _),
        List.getElem?_eq_getElem (by omega : idx < _)]
      apply congrArg some
      rw [← List.getD_eq_getElem _ v0, ← List.getD_eq_getElem _ v0]
      rw [getD_map' (outputHead nu mp) v0 v0
          (by rw [decoder_out_length, List.length_map]; exact hM),
        getD_map' (outputHead nu mp) v0 v0
          (by rw [decoder_out_length, List.length_map]; omega)]
      apply congrArg
      exact decoder_causal_getD nu mp.D mp.H ts.length mp.layers
        mp.layers.length (ts.map mp.wte) (ts'.map mp.wte) (i + 1)
        (by rw [List.length_map]) (by rw [List.length_map, hlen])
        hx idx hidx hM
    · rw [List.getElem?_eq_none (by omega), List.getElem?_eq_none (by omega)]

theorem claim_C3_causal_mask_witness :
    (phi2Call tinyNu tinyMp [0, 0, 1] none none).1.take 2 =
      (phi2Call tinyNu tinyMp [0, 0, 2] none none).1.take 2 ∧
    ((causalMask 3).getD 0 []).getD 2 ⊥ = ⊥ ∧
    phi2Call tinyNu tinyMp [5] none none =
      phi2Inner tinyNu tinyMp none [5] none := by
  refine ⟨?_, ?_, ?_⟩
  · exact claim_C3_causal_mask.2.2.2 tinyNu tinyMp none none [0, 0, 1] [0, 0, 2]
      1 (by decide) (by decide) (by decide)
  · rw [claim_C3_causal_mask.2.2.1 3 0 2 (by decide) (by decide)]
    rfl
  · exact claim_C3_causal_mask.2.1 tinyNu tinyMp [5] none none (by decide)

/-! ## Claim C6: complete_text termination and marker handling -/

/-- `findOcc` returns the least index at which the pattern occurs. -/
theorem findOcc_some (pat : List Char) :
    ∀ (s : List Char) (i : ℕ), findOcc pat s = some i →
      pat.isPrefixOf (s.drop i) = true ∧
      ∀ j, j < i → pat.isPrefixOf (s.drop j) = false := by
  intro s
  induction s with
  | nil =>
    intro i h
    simp only [findOcc] at h
    by_cases hc : pat.isPrefixOf ([] : List Char) = true
    · rw [if_pos hc] at h
      cases h
      exact ⟨by simpa using hc, fun j hj => by omega⟩
    · rw [if_neg hc] at h
      cases h
  | cons c s ih =>
    intro i h
    simp only [findOcc] at h
    by_cases hc : pat.isPrefixOf (c :: s) = true
    · rw [if_pos hc] at h
      cases h
      exact ⟨by simpa using hc, fun j hj => by omega⟩
    · rw [if_neg hc] at h
      rcases Option.map_eq_some'.1 h with ⟨i', hi', rfl⟩
      obtain ⟨h1, h2⟩ := ih i' hi'
      refine ⟨by simpa using h1, ?_⟩
      intro j hj
      cases j with
      | zero => simpa using Bool.eq_false_iff.2 hc
      | succ j' =>
        rw [List.drop_succ_cons]
        exact h2 j' (by omega)

/-- When `findOcc` finds nothing, the pattern occurs nowhere. -/
theorem findOcc_none (pat : List Char) :
    ∀ (s : List Char), findOcc pat s = none →
      ∀ j, pat.isPrefixOf (s.drop j) = false := by
  intro s
  induction s with
  | nil =>
    intro h j
    simp only [findOcc] at h
    by_cases hc : pat.isPrefixOf ([] : List Char) = true
    · rw [if_pos hc] at h; cases h
    · rw [List.drop_eq_nil_of_eq_nil rfl]
      exact Bool.eq_false_iff.2 hc
  | cons c s ih =>
    intro h j
    simp only [findOcc] at h
    by_cases hc : pat.isPrefixOf (c :: s) = true
    · rw [if_pos hc] at h; cases h
    · rw [if_neg hc] at h
      have hs : findOcc pat s = none := by
        cases hfs : findOcc pat s with
        | none => rfl
        | some v => rw [hfs] at h; cases h
      cases j with
      | zero => simpa using Bool.eq_false_iff.2 hc
      | succ j' =>
        rw [List.drop_succ_cons]
        exact ih hs j'

/-- A pattern that is a prefix of a `take` of `l` is a prefix of `l`. -/
theorem isPrefixOf_of_take :
    ∀ (pat l : List Char) (m : ℕ), pat.isPrefixOf (l.take m) = true →
      pat.isPrefixOf l = true
  | [], l, _, _ => by cases l <;> rfl
  | a :: ps, [], m, h => by
    simp [List.take_nil] at h
  | a :: ps, b :: l', 0, h => by
    simp at h
  | a :: ps, b :: l', m + 1, h => by
    simp only [List.take_succ_cons, List.isPrefixOf_cons₂] at h ⊢
    rw [Bool.and_eq_true] at h ⊢
    exact ⟨h.1, isPrefixOf_of_take ps l' m h.2⟩

/-- Everything before the first occurrence of the marker is marker-free. -/
theorem eosIn_beforeEos (s : List Char) : eosIn (beforeEos s) = false := by
  unfold beforeEos
  cases hf : findOcc eosMarker s with
  | none =>
    unfold eosIn
    rw [hf]
    rfl
  | some i =>
    unfold eosIn
    cases hg : findOcc eosMarker (s.take i) with
    | none => rfl
    | some j =>
      exfalso
      obtain ⟨hpre, _⟩ := findOcc_some eosMarker (s.take i) j hg
      have hjlen : j < (s.take i).length := by
        by_contra hge
        push_neg at hge
        rw [List.drop_eq_nil_of_le hge] at hpre
        exact absurd hpre (by decide)
      have hji : j < i :=
        lt_of_lt_of_le hjlen (List.length_take_le i s)
      have hji' : j + (i - j) = i := by omega
      have heq : (s.drop j).take (i - j) = (s.take i).drop j := by
        rw [List.take_drop, hji']
      rw [← heq] at hpre
      have hs := isPrefixOf_of_take eosMarker (s.drop j) (i - j) hpre
      have hmin := (findOcc_some eosMarker s i hf).2 j hji
      rw [hs] at hmin
      cases hmin

/-- Invariant of the chunked loop: it counts exactly `10k` tokens when it
never hits the marker, never more than `10k`, and every piece of text it
accumulates is marker-free (the chunk in which the marker is found
contributes nothing). -/
theorem ctChunks_pieces (stream : ℕ → ℕ) (decode : List ℕ → List Char) :
    ∀ (k start : ℕ),
      ((ctChunks stream decode k start).2.2 = false →
        (ctChunks stream decode k start).2.1 = 10 * k) ∧
      (ctChunks stream decode k start).2.1 ≤ 10 * k ∧
      ∃ ps : List (List Char),
        (ctChunks stream decode k start).1 = ps.flatten ∧
        ∀ p ∈ ps, eosIn p = false := by
  intro k
  induction k with
  | zero =>
    intro start
    exact ⟨fun _ => rfl, Nat.le_refl 0, ⟨[], rfl, by simp⟩⟩
  | succ k ih =>
    intro start
    simp only [ctChunks]
    by_cases hc :
        eosIn (decode ((List.range 10).map fun j => stream (start + j))) = true
    · rw [if_pos hc]
      refine ⟨?_, ?_, ?_⟩
      · intro hfalse
        cases hfalse
      · show 10 ≤ 10 * (k + 1)
        omega
      · exact ⟨[], rfl, by simp⟩
    · rw [if_neg hc]
      obtain ⟨h1, h2, ps, hps, hall⟩ := ih (start + 10)
      refine ⟨?_, ?_, ?_⟩
      · intro hfl
        show 10 + (ctChunks stream decode k (start + 10)).2.1 = 10 * (k + 1)
        rw [h1 hfl]
        ring
      · show 10 + (ctChunks stream decode k (start + 10)).2.1 ≤ 10 * (k + 1)
        omega
      · refine ⟨decode ((List.range 10).map fun j => stream (start + j)) :: ps,
          ?_, ?_⟩
        · show decode ((List.range 10).map fun j => stream (start + j)) ++
            (ctChunks stream decode k (start + 10)).1 = _
          rw [List.flatten_cons, hps]
        · intro p hp
          rcases List.mem_cons.1 hp with rfl | hmem
          · exact Bool.eq_false_iff.2 hc
          · exact hall p hmem

/-- C6: for every prompt and `max_tokens = N`, `complete_text` counts exactly
`N` generated tokens unless the end-of-sequence marker is decoded inside a
full chunk first, in which case it stops at or before `N`; and the returned
text is a concatenation of pieces none of which contains the marker (the
marker, where decoded, is excluded). -/
theorem claim_C6_termination (nu : Numerics) (mp : Phi2Params)
    (encode : String → List ℕ) (decode : List ℕ → List Char) (sp : String)
    (temp : ℚ) (N : ℕ) :
    (completeText nu mp encode decode sp temp N).2.2 ≤ N ∧
    (ctEos nu mp encode decode sp temp N = false →
      (completeText nu mp encode decode sp temp N).2.2 = N) ∧
    (∃ ps : List (List Char),
      (completeText nu mp encode decode sp temp N).1 = ps.flatten ∧
      ∀ p ∈ ps, eosIn p = false) := by
  obtain ⟨h1, h2, ps, hps, hall⟩ :=
    ctChunks_pieces (tokenStream nu mp temp (encode sp)) decode (N / 10) 0
  unfold completeText ctEos
  by_cases hflag :
      (ctChunks (tokenStream nu mp temp (encode sp)) decode (N / 10) 0).2.2
        = true
  · rw [if_pos hflag]
    refine ⟨?_, ?_, ps, hps, hall⟩
    · show (ctChunks (tokenStream nu mp temp (encode sp)) decode (N / 10) 0).2.1
        ≤ N
      omega
    · intro hfalse
      rw [hflag] at hfalse
      cases hfalse
  · rw [if_neg hflag]
    have hfl :
        (ctChunks (tokenStream nu mp temp (encode sp)) decode (N / 10) 0).2.2
          = false := Bool.eq_false_iff.2 hflag
    refine ⟨?_, ?_, ?_⟩
    · show (ctChunks (tokenStream nu mp temp (encode sp)) decode (N / 10) 0).2.1
        + N % 10 ≤ N
      rw [h1 hfl]
      omega
    · intro _
      show (ctChunks (tokenStream nu mp temp (encode sp)) decode (N / 10) 0).2.1
        + N % 10 = N
      rw [h1 hfl]
      omega
    · refine ⟨ps ++ [beforeEos (decode ((List.range (N % 10)).map fun j =>
        tokenStream nu mp temp (encode sp) (10 * (N / 10) + j)))], ?_, ?_⟩
      · rw [List.flatten_append, ← hps, List.flatten_cons, List.flatten_nil,
          List.append_nil]
      · intro p hp
        rcases List.mem_append.1 hp with hmem | hmem
        · exact hall p hmem
        · rcases List.mem_singleton.1 hmem with rfl
          exact eosIn_beforeEos _

def wEnc : String → List ℕ := fun _ => [0]

def wDec : List ℕ → List Char := fun ts => ts.map fun n => Char.ofNat (65 + n)

theorem claim_C6_termination_witness :
    (completeText tinyNu tinyMp wEnc wDec "hi" 0 3).2.2 = 3 ∧
    (completeText tinyNu tinyMp wEnc wDec "hi" 0 3).2.2 ≤ 3 := by
  have h := claim_C6_termination tinyNu tinyMp wEnc wDec "hi" 0 3
  exact ⟨h.2.1 rfl, h.1⟩

/-! ## Claim C8 -/

/-- C8: every response of the chat-completions handler satisfies
`usage.prompt_tokens + usage.completion_tokens = usage.total_tokens`, carries
exactly one choice, and that choice has `finish_reason = "stop"` and
`index = 0` (and `object = "chat.completion"`). -/
theorem claim_C8_response_invariants (nu : Numerics) (mp : Phi2Params)
    (encode : String → List ℕ) (decode : List ℕ → List Char) (now : ℤ)
    (dtm : ℕ) (req : ChatRequest) :
    (apiCompletions nu mp encode decode now dtm req).usage.prompt_tokens +
        (apiCompletions nu mp encode decode now dtm req).usage.completion_tokens
      = (apiCompletions nu mp encode decode now dtm req).usage.total_tokens ∧
    (apiCompletions nu mp encode decode now dtm req).choices.length = 1 ∧
    ((apiCompletions nu mp encode decode now dtm req).choices.headD
      dummyChoice).finish_reason = "stop" ∧
    ((apiCompletions nu mp encode decode now dtm req).choices.headD
      dummyChoice).index = 0 ∧
    (apiCompletions nu mp encode decode now dtm req).object =
      "chat.completion" :=
  ⟨rfl, rfl, rfl, rfl, rfl⟩

/-! ## Claim C10 -/

/-- C10: a chat-completions request whose body omits the temperature field is
served exactly like one with temperature `0.7`, and sampling at temperature
`0.7` takes the stochastic categorical branch over `logits * (1/0.7)` — which
can differ from the greedy argmax. -/
theorem claim_C10_default_temperature :
    (∀ (nu : Numerics) (mp : Phi2Params) (encode : String → List ℕ)
      (decode : List ℕ → List Char) (now : ℤ) (dtm : ℕ)
      (ms : List ChatMessage),
      apiCompletions nu mp encode decode now dtm ⟨ms, none⟩ =
        apiCompletions nu mp encode decode now dtm ⟨ms, some (7 / 10)⟩) ∧
    (∀ (nu : Numerics) (vocab : ℕ) (logits : V),
      sample nu vocab (7 / 10) logits =
        nu.cat fun c => logits c * (1 / (7 / 10))) ∧
    (∃ (nu : Numerics) (vocab : ℕ) (logits : V),
      sample nu vocab (7 / 10) logits ≠ argmaxIdx vocab logits) := by
  refine ⟨fun _ _ _ _ _ _ _ => rfl, ?_, ?_⟩
  · intro nu vocab logits
    simp only [sample, if_neg (show ¬(7 / 10 : ℚ) = 0 by norm_num)]
  · refine ⟨tinyNu, 2, wLogits, ?_⟩
    have hs : sample tinyNu 2 (7 / 10) wLogits = 0 := by
      unfold sample
      rw [if_neg (show ¬(7 / 10 : ℚ) = 0 by norm_num)]
      rfl
    have ha : argmaxIdx 2 wLogits = 1 := by decide
    rw [hs, ha]
    decide

/-! ## Claim C7 -/

/-- C7 counterexample: a request with `temperature = -1` is not rejected as an
invalid-sampling-parameter error: the handler returns an ordinary
`chat.completion` response, and that response's content depends on the
categorical sampling collaborator — two servers differing only in the
categorical draw answer the same negative-temperature request differently, so
the request is processed by stochastic sampling, not rejected. -/
theorem claim_C7_counterexample :
    (apiCompletions tinyNu tinyMp wEnc wDec 0 1
      ⟨[⟨"user", "hi"⟩], some (-1)⟩).object = "chat.completion" ∧
    ((apiCompletions tinyNu tinyMp wEnc wDec 0 1
      ⟨[⟨"user", "hi"⟩], some (-1)⟩).choices.headD
        dummyChoice).message.content ≠
      ((apiCompletions tinyNu1 tinyMp wEnc wDec 0 1
        ⟨[⟨"user", "hi"⟩], some (-1)⟩).choices.headD
          dummyChoice).message.content := by
  refine ⟨rfl, ?_⟩
  decide

/-- C7 amended: a completion request with negative temperature is accepted,
not rejected — the handler has no validation and no error path; the
temperature is passed through to the sampler, which takes the stochastic
categorical branch over `logits * (1/temp)`. -/
theorem claim_C7_amended (nu : Numerics) (mp : Phi2Params)
    (encode : String → List ℕ) (decode : List ℕ → List Char) (now : ℤ)
    (dtm : ℕ) (ms : List ChatMessage) (t : ℚ) (ht : t < 0) :
    (apiCompletions nu mp encode decode now dtm ⟨ms, some t⟩).object =
      "chat.completion" ∧
    ∀ (vocab : ℕ) (logits : V),
      sample nu vocab t logits = nu.cat fun c => logits c * (1 / t) := by
  refine ⟨rfl, ?_⟩
  intro vocab logits
  simp only [sample, if_neg (ne_of_lt ht)]

theorem claim_C7_amended_witness :
    (apiCompletions tinyNu tinyMp wEnc wDec 0 1
      ⟨[⟨"user", "hi"⟩], some (-1)⟩).object = "chat.completion" ∧
    sample tinyNu 1 (-1) v0 = 0 := by
  have h := claim_C7_amended tinyNu tinyMp wEnc wDec 0 1 [⟨"user", "hi"⟩]
    (-1) (by norm_num)
  exact ⟨h.1, (h.2 1 v0).trans rfl⟩
